import Mathlib

/-!
Verification of the number-extraction-and-ranking engine of `src/main.py`.

The program scans per-page text of a document for numeric tokens, detects
magnitude suffixes (K/M/B/T) and contextual scale keywords ("in millions",
"(thousands)"), reconciles the two so no number is double-scaled, and ranks
the results.

Embedding choices:
* Text is `List Char`; the Python regexes are embedded as hand-rolled
  matchers that reproduce the `re` module's leftmost, first-alternative,
  greedy-with-backtracking semantics for the two concrete patterns used by
  the program.  Word characters are modelled as ASCII alphanumerics plus
  underscore, the ASCII fragment of Python's `\w`.
* Numeric values are `ℚ` (exact decimals) rather than binary floats; every
  value handled by the program is a short decimal literal, and no claim
  depends on binary rounding.
* The pdfplumber document adapter is modelled as a list of per-page
  extraction results, `List (Option (List Char))`; `none` stands for a page
  with no extractable text.  Python's `if not text: continue` also skips an
  empty string, which the embedding reproduces.
* Python's stable `list.sort` is embedded as a stable insertion sort; a
  stable sort's output is determined by the key order, so this is
  observationally the same function.
* Each scanning loop consumes at least one character per step, so running
  the structural-recursion scanners with `fuel = length of the text` never
  exhausts the fuel early.
-/

/-- Word characters for the boundary assertion of the regexes
(ASCII fragment of Python's word class). -/
def isWordChar (c : Char) : Bool := c.isAlphanum || c == '_'

/-- Wordness of an optional character; positions outside the string count
as non-word. -/
def optWord : Option Char → Bool
  | none => false
  | some c => isWordChar c

/-- The boundary assertion between two adjacent positions: it holds
exactly when wordness changes. -/
def isBoundary (a b : Option Char) : Bool := optWord a != optWord b

/-- Numeric value of a digit string, most significant first. -/
def digitsVal (ds : List Char) : ℕ :=
  ds.foldl (fun a c => a * 10 + (c.toNat - 48)) 0

/-- Value of a matched numeric token: commas are stripped, then the token is
read as `integer part . fractional part`.  This embeds
`float(match.replace(",", ""))` from `src/main.py` (lines 37 and 79) on the
token language of the patterns. -/
def parseDec (cs : List Char) : ℚ :=
  let cs2 := cs.filter (fun c => c != ',')
  let ip := cs2.takeWhile (fun c => c != '.')
  let rest := cs2.dropWhile (fun c => c != '.')
  match rest with
  | [] => (digitsVal ip : ℚ)
  | _ :: fp => (digitsVal ip : ℚ) + (digitsVal fp : ℚ) / ((10 : ℚ) ^ fp.length)

/-!
Candidate enumeration for the numeric-token group
`\d{1,3}(?:,\d{3})*(?:\.\d+)?|\d+\.\d+|\d+`.

`numCandidates s` lists every way the group can match a prefix of `s`, as
pairs `(consumed, rest)`, in exactly the order a backtracking regex engine
tries them: alternatives left to right, quantifiers greedy (longest first).
The first candidate is therefore the match of the plain-number pattern, and
the suffix pattern commits to the first candidate whose remainder starts
with a suffix letter followed by a boundary.
-/

/-- Candidates for a digit quantifier taking between 1 and `maxN` leading
digits of `s`, longest first. -/
def takeDigitCands (maxN : ℕ) (s : List Char) : List (List Char × List Char) :=
  let n := min maxN (s.takeWhile Char.isDigit).length
  (List.range n).map (fun j => (s.take (n - j), s.drop (n - j)))

/-- Candidates for `\d+`: between 1 and all leading digits, longest first. -/
def dPlusCands (s : List Char) : List (List Char × List Char) :=
  takeDigitCands s.length s

/-- Candidates for `(?:,\d{3})*`: a maximal, then successively shorter, run
of comma-plus-three-digit groups; the empty iteration comes last. -/
def commaGroupCands : List Char → List (List Char × List Char)
  | ',' :: d1 :: d2 :: d3 :: rest =>
    if d1.isDigit && d2.isDigit && d3.isDigit then
      (commaGroupCands rest).map (fun pr => (',' :: d1 :: d2 :: d3 :: pr.1, pr.2))
        ++ [([], ',' :: d1 :: d2 :: d3 :: rest)]
    else [([], ',' :: d1 :: d2 :: d3 :: rest)]
  | s => [([], s)]

/-- Candidates for `(?:\.\d+)?`: a dot plus a greedy run of digits, longest
first, then the empty option. -/
def fracCands (s : List Char) : List (List Char × List Char) :=
  match s with
  | '.' :: rest =>
    (takeDigitCands rest.length rest).map (fun pr => ('.' :: pr.1, pr.2)) ++ [([], '.' :: rest)]
  | _ => [([], s)]

/-- Candidates of the first alternative `\d{1,3}(?:,\d{3})*(?:\.\d+)?`. -/
def branchA (s : List Char) : List (List Char × List Char) :=
  (takeDigitCands 3 s).flatMap (fun p1 =>
    (commaGroupCands p1.2).flatMap (fun p2 =>
      (fracCands p2.2).map (fun p3 => (p1.1 ++ p2.1 ++ p3.1, p3.2))))

/-- Candidates of the second alternative `\d+\.\d+`.  The leading `\d+` is
maximal over a contiguous digit run, so only its full-run candidate can be
followed by a dot; shorter candidates are followed by a digit and fail,
exactly as in the engine. -/
def branchB (s : List Char) : List (List Char × List Char) :=
  (dPlusCands s).flatMap (fun p1 =>
    match p1.2 with
    | '.' :: r2 => (takeDigitCands r2.length r2).map (fun p3 => (p1.1 ++ '.' :: p3.1, p3.2))
    | _ => [])

/-- Candidates of the third alternative `\d+`. -/
def branchC (s : List Char) : List (List Char × List Char) :=
  dPlusCands s

/-- All candidates of the numeric-token group, in backtracking order. -/
def numCandidates (s : List Char) : List (List Char × List Char) :=
  branchA s ++ branchB s ++ branchC s

/-- The suffix letters accepted by `[KkMmBbTt]` in
`parse_number_with_suffix` (src/main.py line 25). -/
def isSuffixChar (c : Char) : Bool :=
  c == 'K' || c == 'k' || c == 'M' || c == 'm' ||
  c == 'B' || c == 'b' || c == 'T' || c == 't'

/-- The suffix multiplier table `suffix_multipliers` of `src/main.py`
(lines 28-33), including the `.get(suffix, 1)` fallback of line 39. -/
def suffix_multipliers (c : Char) : ℕ :=
  if c == 'k' || c == 'K' then 1000
  else if c == 'm' || c == 'M' then 1000000
  else if c == 'b' || c == 'B' then 1000000000
  else if c == 't' || c == 'T' then 1000000000000
  else 1

/-- Attempt of the suffixed-number pattern
`\b(\d{1,3}(?:,\d{3})*(?:\.\d+)?|\d+\.\d+|\d+)([KkMmBbTt])\b` at the start
of `s` (the leading boundary is checked by the caller): the first numeric
candidate whose remainder starts with a suffix letter followed by a
boundary wins.  Returns `(token, suffix letter, rest)`. -/
def trySuffix (s : List Char) : Option (List Char × Char × List Char) :=
  (numCandidates s).findSome? (fun tr =>
    match tr.2 with
    | c :: rest2 =>
      if isSuffixChar c && !(optWord rest2.head?) then some (tr.1, c, rest2) else none
    | [] => none)

/-- Non-overlapping left-to-right scan of the suffixed-number pattern, as
`pattern.finditer` does: at each boundary position try a match; on success
resume after the match, otherwise advance one character.  `prev` is the
character before the current position. -/
def scanSuffixAux : ℕ → Option Char → List Char → List (List Char × Char)
  | 0, _, _ => []
  | _ + 1, _, [] => []
  | fuel + 1, prev, c :: rest =>
    if isBoundary prev (some c) then
      match trySuffix (c :: rest) with
      | some tcr => (tcr.1, tcr.2.1) :: scanSuffixAux fuel (some tcr.2.1) tcr.2.2
      | none => scanSuffixAux fuel (some c) rest
    else scanSuffixAux fuel (some c) rest

/-- All matches of the suffixed-number pattern in a text, as
`(token, suffix letter)` pairs. -/
def scanSuffixTokens (txt : List Char) : List (List Char × Char) :=
  scanSuffixAux txt.length none txt

/-- `parse_number_with_suffix` of `src/main.py` (lines 19-43): one triple
`(raw value, scaled value, multiplier)` per match of the suffixed-number
pattern, left to right. -/
def parse_number_with_suffix (txt : List Char) : List (ℚ × ℚ × ℕ) :=
  (scanSuffixTokens txt).map (fun ts =>
    (parseDec ts.1, parseDec ts.1 * (suffix_multipliers ts.2 : ℚ), suffix_multipliers ts.2))

/-- Non-overlapping left-to-right scan of the plain-number pattern
`\b\d{1,3}(?:,\d{3})*(?:\.\d+)?|\b\d+\.\d+|\b\d+`, as `pattern.findall`
does.  Every alternative begins with the boundary assertion, so at each
boundary position the engine commits to the first candidate. -/
def scanNumsAux : ℕ → Option Char → List Char → List (List Char)
  | 0, _, _ => []
  | _ + 1, _, [] => []
  | fuel + 1, prev, c :: rest =>
    if isBoundary prev (some c) then
      match (numCandidates (c :: rest)).head? with
      | some tr => tr.1 :: scanNumsAux fuel tr.1.getLast? tr.2
      | none => scanNumsAux fuel (some c) rest
    else scanNumsAux fuel (some c) rest

/-- All matches of the plain-number pattern in a text. -/
def scanNumTokens (txt : List Char) : List (List Char) :=
  scanNumsAux txt.length none txt

/-- `extract_numbers` of `src/main.py` (lines 73-79): the values of the
plain-number matches, in order of appearance. -/
def extract_numbers (txt : List Char) : List ℚ :=
  (scanNumTokens txt).map parseDec

/-- The `SCALE_KEYWORDS` table of `src/main.py` (lines 10-17), in source
order. -/
def SCALE_KEYWORDS : List (String × ℕ) :=
  [("million", 1000000), ("millions", 1000000),
   ("billion", 1000000000), ("billions", 1000000000),
   ("thousand", 1000), ("thousands", 1000)]

/-- Whether `pat` occurs in `s` starting at index `i`. -/
def occursAt (pat s : List Char) (i : ℕ) : Bool :=
  (s.drop i).take pat.length == pat

/-- Python's `str.rfind`: the greatest index at which `pat` occurs in `s`,
and `-1` when it does not occur. -/
def rfind (s pat : List Char) : ℤ :=
  match ((List.range (s.length + 1)).filter (occursAt pat s)).getLast? with
  | some i => (i : ℤ)
  | none => -1

/-- The surface forms searched by `find_scale_factor`: for each keyword in
table order, `"in keyword"` then `"(keyword)"` (src/main.py line 64). -/
def scalePatterns : List (List Char × ℕ) :=
  SCALE_KEYWORDS.flatMap (fun kf =>
    [(("in " ++ kf.1).toList, kf.2), (("(" ++ kf.1 ++ ")").toList, kf.2)])

/-- One step of the last-occurrence-wins fold of `find_scale_factor`
(src/main.py lines 63-68): update on a strictly greater `rfind` index. -/
def scaleStep (tl : List Char) (acc : ℤ × ℕ) (pf : List Char × ℕ) : ℤ × ℕ :=
  if rfind tl pf.1 > acc.1 then (rfind tl pf.1, pf.2) else acc

/-- `find_scale_factor` of `src/main.py` (lines 46-70): lower-case the text,
then fold over all keyword surface forms keeping the factor of the pattern
with the greatest `rfind` index; the initial state is `(-1, 1)`. -/
def find_scale_factor (text : List Char) : ℕ :=
  (scalePatterns.foldl (scaleStep (text.map Char.toLower)) ((-1 : ℤ), (1 : ℕ))).2

/-- A ranked entry `(scaled_value, page_number, raw_value, multiplier)` as
appended by `find_largest_number_in_pdf` (src/main.py lines 109 and 120). -/
structure RankedEntry where
  scaled_value : ℚ
  page_number : ℕ
  raw_value : ℚ
  multiplier : ℕ
deriving DecidableEq

/-- Stable descending insertion by a rational key: an element is placed
before the first existing element whose key is less than or equal to its
own, so earlier input stays first among equal keys. -/
def insertDescBy {α : Type} (key : α → ℚ) (x : α) : List α → List α
  | [] => [x]
  | y :: ys => if key y ≤ key x then x :: y :: ys else y :: insertDescBy key x ys

/-- Stable descending sort by a rational key.  Python's
`list.sort(reverse=True, key=...)` is stable, and a stable sort's output is
uniquely determined by the key order, so this embeds it faithfully. -/
def sortDescBy {α : Type} (key : α → ℚ) (l : List α) : List α :=
  l.foldr (insertDescBy key) []

/-- The per-page body of `find_largest_number_in_pdf` (src/main.py lines
104-120): suffixed numbers first, each with its own multiplier, then every
plain number whose raw value is not among the suffix-consumed raw values,
scaled by the page's contextual factor. -/
def pageEntries (pageno : ℕ) (txt : List Char) : List RankedEntry :=
  let suffix_numbers := parse_number_with_suffix txt
  let suffix_values := suffix_numbers.map (fun t => t.1)
  let fromSuffix := suffix_numbers.map (fun t => RankedEntry.mk t.2.1 pageno t.1 t.2.2)
  let numbers := extract_numbers txt
  let scale_factor := find_scale_factor txt
  let fromContext := numbers.filterMap (fun num =>
    if num ∈ suffix_values then none
    else some (RankedEntry.mk (num * (scale_factor : ℚ)) pageno num scale_factor))
  fromSuffix ++ fromContext

/-- The page loop of `find_largest_number_in_pdf` (src/main.py lines
98-120): pages are numbered from `i + 1`; a page whose extraction yields
`none` or the empty text is skipped (`if not text: continue`). -/
def collectScaled : ℕ → List (Option (List Char)) → List RankedEntry
  | _, [] => []
  | i, p :: ps =>
    (match p with
     | none => []
     | some txt => if txt.isEmpty then [] else pageEntries (i + 1) txt)
      ++ collectScaled (i + 1) ps

/-- `find_largest_number_in_pdf` of `src/main.py` (lines 82-123), with the
document adapter replaced by the list of per-page extraction results: sort
all accumulated entries by scaled value, descending and stable, and keep
the first `top_n`. -/
def find_largest_number_in_pdf (pages : List (Option (List Char))) (top_n : ℕ) :
    List RankedEntry :=
  (sortDescBy (fun e => e.scaled_value) (collectScaled 0 pages)).take top_n

/-- The page loop of `find_largest_raw_numbers` (src/main.py lines 135-143):
every plain-number value paired with its 1-based page number. -/
def collectRaw : ℕ → List (Option (List Char)) → List (ℚ × ℕ)
  | _, [] => []
  | i, p :: ps =>
    (match p with
     | none => []
     | some txt =>
       if txt.isEmpty then [] else (extract_numbers txt).map (fun num => (num, i + 1)))
      ++ collectRaw (i + 1) ps

/-- `find_largest_raw_numbers` of `src/main.py` (lines 128-146): raw values
only, no multiplier is ever applied; sort descending by value, stable, and
keep the first `top_n`. -/
def find_largest_raw_numbers (pages : List (Option (List Char))) (top_n : ℕ) :
    List (ℚ × ℕ) :=
  (sortDescBy (fun x => x.1) (collectRaw 0 pages)).take top_n

/-! ### Helper lemmas about the tokenizer -/

theorem parseDec_nonneg (cs : List Char) : 0 ≤ parseDec cs := by
  unfold parseDec
  dsimp only
  split
  · exact Nat.cast_nonneg _
  · refine add_nonneg (Nat.cast_nonneg _) (div_nonneg (Nat.cast_nonneg _) ?_)
    positivity

theorem findSome?_exists {α β : Type} {f : α → Option β} :
    ∀ {l : List α} {b : β}, List.findSome? f l = some b → ∃ a, a ∈ l ∧ f a = some b := by
  intro l
  induction l with
  | nil => intro b h; simp [List.findSome?] at h
  | cons a l ih =>
    intro b h
    rw [List.findSome?_cons] at h
    cases hfa : f a with
    | some c =>
      rw [hfa] at h
      exact ⟨a, List.mem_cons_self a l, by rw [hfa]; exact h⟩
    | none =>
      rw [hfa] at h
      obtain ⟨x, hx, hfx⟩ := ih h
      exact ⟨x, List.mem_cons_of_mem a hx, hfx⟩

theorem trySuffix_char {s tok : List Char} {c : Char} {rest2 : List Char}
    (h : trySuffix s = some (tok, c, rest2)) : isSuffixChar c = true := by
  unfold trySuffix at h
  obtain ⟨tr, _, hf⟩ := findSome?_exists h
  rcases tr with ⟨t1, t2⟩
  cases t2 with
  | nil => simp at hf
  | cons c0 r0 =>
    dsimp only at hf
    by_cases hc : (isSuffixChar c0 && !(optWord r0.head?)) = true
    · rw [if_pos hc] at hf
      rw [Bool.and_eq_true] at hc
      simp only [Option.some.injEq, Prod.mk.injEq] at hf
      obtain ⟨-, hcc, -⟩ := hf
      rw [← hcc]
      exact hc.1
    · rw [if_neg hc] at hf
      exact absurd hf (by simp)

theorem mem_scanSuffixAux :
    ∀ (fuel : ℕ) (prev : Option Char) (s : List Char) {tok : List Char} {c : Char},
      (tok, c) ∈ scanSuffixAux fuel prev s → isSuffixChar c = true := by
  intro fuel
  induction fuel with
  | zero => intro prev s tok c h; simp [scanSuffixAux] at h
  | succ n ih =>
    intro prev s tok c h
    cases s with
    | nil => simp [scanSuffixAux] at h
    | cons c0 rest =>
      rw [scanSuffixAux] at h
      by_cases hb : isBoundary prev (some c0) = true
      · rw [if_pos hb] at h
        cases hts : trySuffix (c0 :: rest) with
        | none => rw [hts] at h; exact ih _ _ h
        | some tcr =>
          rw [hts] at h
          rcases List.mem_cons.mp h with heq | hmem
          · rcases tcr with ⟨tk, sc, r2⟩
            have hchar := trySuffix_char hts
            have : c = sc := congrArg Prod.snd heq
            rw [this]
            exact hchar
          · exact ih _ _ hmem
      · rw [if_neg hb] at h
        exact ih _ _ h

theorem mem_parse_number_with_suffix {txt : List Char} {r sv : ℚ} {m : ℕ}
    (h : (r, sv, m) ∈ parse_number_with_suffix txt) :
    ∃ tok c, (tok, c) ∈ scanSuffixTokens txt ∧ isSuffixChar c = true ∧
      r = parseDec tok ∧ m = suffix_multipliers c ∧ sv = r * (m : ℚ) := by
  unfold parse_number_with_suffix at h
  rw [List.mem_map] at h
  obtain ⟨ts, hts, heq⟩ := h
  rcases ts with ⟨tok, c⟩
  simp only [Prod.mk.injEq] at heq
  obtain ⟨h1, h2, h3⟩ := heq
  refine ⟨tok, c, hts, mem_scanSuffixAux _ _ _ hts, h1.symm, h3.symm, ?_⟩
  rw [← h1, ← h2, ← h3]

theorem suffix_multipliers_of_isSuffixChar {c : Char} (h : isSuffixChar c = true) :
    suffix_multipliers c = 1000 ∨ suffix_multipliers c = 1000000 ∨
    suffix_multipliers c = 1000000000 ∨ suffix_multipliers c = 1000000000000 := by
  simp only [isSuffixChar, Bool.or_eq_true, beq_iff_eq] at h
  rcases h with ((((((h | h) | h) | h) | h) | h) | h) | h <;> subst h <;> decide

theorem mem_extract_numbers {txt : List Char} {v : ℚ} (h : v ∈ extract_numbers txt) :
    ∃ tok, tok ∈ scanNumTokens txt ∧ v = parseDec tok := by
  unfold extract_numbers at h
  rw [List.mem_map] at h
  obtain ⟨tok, htok, heq⟩ := h
  exact ⟨tok, htok, heq.symm⟩

/-! ### Helper lemmas about the stable descending sort -/

theorem insertDescBy_perm {α : Type} (key : α → ℚ) (x : α) (l : List α) :
    (insertDescBy key x l).Perm (x :: l) := by
  induction l with
  | nil => exact List.Perm.refl _
  | cons y ys ih =>
    rw [insertDescBy]
    by_cases h : key y ≤ key x
    · rw [if_pos h]
    · rw [if_neg h]
      exact (ih.cons y).trans (List.Perm.swap x y ys)

theorem sortDescBy_perm {α : Type} (key : α → ℚ) (l : List α) :
    (sortDescBy key l).Perm l := by
  induction l with
  | nil => exact List.Perm.refl _
  | cons a l ih =>
    show (insertDescBy key a (sortDescBy key l)).Perm (a :: l)
    exact (insertDescBy_perm key a _).trans (ih.cons a)

theorem insertDescBy_pairwise {α : Type} (key : α → ℚ) {x : α} {l : List α}
    (h : l.Pairwise (fun a b => key b ≤ key a)) :
    (insertDescBy key x l).Pairwise (fun a b => key b ≤ key a) := by
  induction l with
  | nil => simp [insertDescBy]
  | cons y ys ih =>
    rw [List.pairwise_cons] at h
    obtain ⟨hy, hys⟩ := h
    rw [insertDescBy]
    by_cases hc : key y ≤ key x
    · rw [if_pos hc, List.pairwise_cons]
      refine ⟨?_, List.pairwise_cons.mpr ⟨hy, hys⟩⟩
      intro b hb
      rcases List.mem_cons.mp hb with rfl | hb2
      · exact hc
      · exact (hy b hb2).trans hc
    · rw [if_neg hc, List.pairwise_cons]
      refine ⟨?_, ih hys⟩
      intro b hb
      have hb3 : b ∈ x :: ys := (insertDescBy_perm key x ys).mem_iff.mp hb
      rcases List.mem_cons.mp hb3 with rfl | hb4
      · exact (not_le.mp hc).le
      · exact hy b hb4

theorem sortDescBy_pairwise {α : Type} (key : α → ℚ) (l : List α) :
    (sortDescBy key l).Pairwise (fun a b => key b ≤ key a) := by
  induction l with
  | nil => simp [sortDescBy]
  | cons a l ih =>
    show (insertDescBy key a (sortDescBy key l)).Pairwise _
    exact insertDescBy_pairwise key ih

theorem insertDescBy_filter {α : Type} (key : α → ℚ) (k : ℚ) {x : α} {l : List α}
    (h : l.Pairwise (fun a b => key b ≤ key a)) :
    (insertDescBy key x l).filter (fun e => decide (key e = k)) =
      if key x = k then x :: l.filter (fun e => decide (key e = k))
      else l.filter (fun e => decide (key e = k)) := by
  induction l with
  | nil =>
    by_cases hxk : key x = k <;> simp [insertDescBy, List.filter, hxk]
  | cons y ys ih =>
    rw [List.pairwise_cons] at h
    obtain ⟨hy, hys⟩ := h
    rw [insertDescBy]
    by_cases hc : key y ≤ key x
    · rw [if_pos hc, List.filter_cons]
      by_cases hxk : key x = k <;> simp [hxk, List.filter_cons]
    · rw [if_neg hc, List.filter_cons]
      have hins := ih hys
      by_cases hxk : key x = k
      · have hyk : ¬ (key y = k) := by
          intro hy2
          exact hc (le_of_eq (hy2.trans hxk.symm))
        simp only [hxk, if_pos] at hins
        simp [hyk, hins, hxk, List.filter_cons]
      · simp only [hxk, if_neg, ite_false] at hins
        by_cases hyk : key y = k <;> simp [hyk, hins, hxk, List.filter_cons]

theorem sortDescBy_filter {α : Type} (key : α → ℚ) (l : List α) (k : ℚ) :
    (sortDescBy key l).filter (fun e => decide (key e = k)) =
      l.filter (fun e => decide (key e = k)) := by
  induction l with
  | nil => rfl
  | cons a l ih =>
    show (insertDescBy key a (sortDescBy key l)).filter _ = _
    rw [insertDescBy_filter key k (sortDescBy_pairwise key l), List.filter_cons]
    by_cases hak : key a = k <;> simp [hak, ih]

/-! ### Helper lemmas about entry accumulation -/

theorem pageEntries_page_number {e : RankedEntry} {n : ℕ} {txt : List Char}
    (h : e ∈ pageEntries n txt) : e.page_number = n := by
  simp only [pageEntries, List.mem_append, List.mem_map, List.mem_filterMap] at h
  rcases h with ⟨t, _, heq⟩ | ⟨num, _, hf⟩
  · rw [← heq]
  · split at hf
    · exact absurd hf (by simp)
    · rw [Option.some_inj] at hf
      rw [← hf]

theorem mem_pageEntries {e : RankedEntry} {n : ℕ} {txt : List Char}
    (h : e ∈ pageEntries n txt) :
    (∃ t, t ∈ parse_number_with_suffix txt ∧ e = RankedEntry.mk t.2.1 n t.1 t.2.2) ∨
    (∃ num, num ∈ extract_numbers txt ∧
      e = RankedEntry.mk (num * (find_scale_factor txt : ℚ)) n num (find_scale_factor txt)) := by
  simp only [pageEntries, List.mem_append, List.mem_map, List.mem_filterMap] at h
  rcases h with ⟨t, ht, heq⟩ | ⟨num, hnum, hf⟩
  · exact Or.inl ⟨t, ht, heq.symm⟩
  · split at hf
    · exact absurd hf (by simp)
    · rw [Option.some_inj] at hf
      exact Or.inr ⟨num, hnum, hf.symm⟩

theorem mem_collectScaled :
    ∀ (ps : List (Option (List Char))) (i : ℕ) {e : RankedEntry},
      e ∈ collectScaled i ps → ∃ txt, some txt ∈ ps ∧ e ∈ pageEntries e.page_number txt := by
  intro ps
  induction ps with
  | nil => intro i e h; simp [collectScaled] at h
  | cons p ps ih =>
    intro i e h
    simp only [collectScaled] at h
    rw [List.mem_append] at h
    rcases h with h | h
    · cases p with
      | none => simp at h
      | some txt =>
        dsimp only at h
        by_cases he : txt.isEmpty
        · rw [if_pos he] at h; simp at h
        · rw [if_neg he] at h
          have hpn := pageEntries_page_number h
          rw [← hpn] at h
          exact ⟨txt, List.mem_cons_self _ _, h⟩
    · obtain ⟨txt, htxt, hmem⟩ := ih (i + 1) h
      exact ⟨txt, List.mem_cons_of_mem _ htxt, hmem⟩

theorem mem_collectRaw :
    ∀ (ps : List (Option (List Char))) (i : ℕ) {v : ℚ} {pg : ℕ},
      (v, pg) ∈ collectRaw i ps → ∃ txt, some txt ∈ ps ∧ v ∈ extract_numbers txt := by
  intro ps
  induction ps with
  | nil => intro i v pg h; simp [collectRaw] at h
  | cons p ps ih =>
    intro i v pg h
    simp only [collectRaw] at h
    rw [List.mem_append] at h
    rcases h with h | h
    · cases p with
      | none => simp at h
      | some txt =>
        dsimp only at h
        by_cases he : txt.isEmpty
        · rw [if_pos he] at h; simp at h
        · rw [if_neg he] at h
          rw [List.mem_map] at h
          obtain ⟨num, hnum, heq⟩ := h
          have : num = v := congrArg Prod.fst heq
          rw [← this]
          exact ⟨txt, List.mem_cons_self _ _, hnum⟩
    · obtain ⟨txt, htxt, hmem⟩ := ih (i + 1) h
      exact ⟨txt, List.mem_cons_of_mem _ htxt, hmem⟩

theorem mem_find_largest {pages : List (Option (List Char))} {n : ℕ} {e : RankedEntry}
    (h : e ∈ find_largest_number_in_pdf pages n) : e ∈ collectScaled 0 pages := by
  unfold find_largest_number_in_pdf at h
  exact (sortDescBy_perm _ _).mem_iff.mp (List.mem_of_mem_take h)

theorem mem_find_largest_raw {pages : List (Option (List Char))} {n : ℕ} {v : ℚ} {pg : ℕ}
    (h : (v, pg) ∈ find_largest_raw_numbers pages n) : (v, pg) ∈ collectRaw 0 pages := by
  unfold find_largest_raw_numbers at h
  exact (sortDescBy_perm _ _).mem_iff.mp (List.mem_of_mem_take h)

theorem collect_eq_nil_of_no_tokens :
    ∀ (ps : List (Option (List Char))),
      (∀ txt, some txt ∈ ps → extract_numbers txt = [] ∧ parse_number_with_suffix txt = []) →
      ∀ i, collectScaled i ps = [] ∧ collectRaw i ps = [] := by
  intro ps
  induction ps with
  | nil => intro _ i; exact ⟨rfl, rfl⟩
  | cons p ps ih =>
    intro h i
    have hps : ∀ txt, some txt ∈ ps →
        extract_numbers txt = [] ∧ parse_number_with_suffix txt = [] :=
      fun txt ht => h txt (List.mem_cons_of_mem _ ht)
    obtain ⟨h1, h2⟩ := ih hps (i + 1)
    cases p with
    | none => simp [collectScaled, collectRaw, h1, h2]
    | some txt =>
      by_cases he : txt.isEmpty
      · simp [collectScaled, collectRaw, he, h1, h2]
      · obtain ⟨hex, hpar⟩ := h txt (List.mem_cons_self _ _)
        constructor
        · simp [collectScaled, he, h1, pageEntries, hex, hpar]
        · simp [collectRaw, he, h2, hex]

/-! ### Helper lemmas about the scale resolver -/

theorem neg_one_le_rfind (s pat : List Char) : -1 ≤ rfind s pat := by
  unfold rfind
  split
  · omega
  · exact le_refl _

theorem foldl_scaleStep_spec (tl : List Char) :
    ∀ (ps : List (List Char × ℕ)) (acc : ℤ × ℕ),
      (ps.foldl (scaleStep tl) acc = acc ∧ ∀ q ∈ ps, rfind tl q.1 ≤ acc.1) ∨
      (∃ p ∈ ps, (ps.foldl (scaleStep tl) acc).1 = rfind tl p.1 ∧
        (ps.foldl (scaleStep tl) acc).2 = p.2 ∧ acc.1 < (ps.foldl (scaleStep tl) acc).1 ∧
        ∀ q ∈ ps, rfind tl q.1 ≤ (ps.foldl (scaleStep tl) acc).1) := by
  intro ps
  induction ps with
  | nil => intro acc; left; exact ⟨rfl, by simp⟩
  | cons p ps ih =>
    intro acc
    rw [List.foldl_cons]
    by_cases hc : rfind tl p.1 > acc.1
    · have hstep : scaleStep tl acc p = (rfind tl p.1, p.2) := by rw [scaleStep, if_pos hc]
      rw [hstep]
      rcases ih (rfind tl p.1, p.2) with ⟨heq, hle⟩ | ⟨p2, hp2, h1, h2, h3, h4⟩
      · right
        refine ⟨p, List.mem_cons_self _ _, by rw [heq], by rw [heq], by rw [heq]; exact hc, ?_⟩
        intro q hq
        rcases List.mem_cons.mp hq with rfl | hq2
        · rw [heq]
        · rw [heq]; exact hle q hq2
      · right
        refine ⟨p2, List.mem_cons_of_mem _ hp2, h1, h2, lt_trans hc h3, ?_⟩
        intro q hq
        rcases List.mem_cons.mp hq with rfl | hq2
        · exact le_of_lt h3
        · exact h4 q hq2
    · have hstep : scaleStep tl acc p = acc := by rw [scaleStep, if_neg hc]
      rw [hstep]
      rcases ih acc with ⟨heq, hle⟩ | ⟨p2, hp2, h1, h2, h3, h4⟩
      · left
        refine ⟨heq, ?_⟩
        intro q hq
        rcases List.mem_cons.mp hq with rfl | hq2
        · exact not_lt.mp hc
        · exact hle q hq2
      · right
        refine ⟨p2, List.mem_cons_of_mem _ hp2, h1, h2, h3, ?_⟩
        intro q hq
        rcases List.mem_cons.mp hq with rfl | hq2
        · exact le_trans (not_lt.mp hc) (le_of_lt h3)
        · exact h4 q hq2

/-! ### Claim theorems -/

/-- C1: for a single page whose text is "(in millions)\nTotal: 134.0M\nOther: 12",
the scaled ranking contains the suffix entry 134,000,000 (multiplier 10^6 from
the `M` suffix) and the contextual entry 12,000,000 (12 times the page's
millions context), and nothing else; in particular no entry scales 134.0
again by the contextual multiplier (no 134,000,000,000,000), because a plain
number whose raw value is in the suffix-consumed set is skipped. -/
theorem no_double_scaling_example :
    find_largest_number_in_pdf [some ("(in millions)\nTotal: 134.0M\nOther: 12").toList] 5 =
      [⟨134000000, 1, 134, 1000000⟩, ⟨12000000, 1, 12, 1000000⟩] := by
  with_unfolding_all rfl

/-- C2: evaluation of the code at the claim's own input, showing the
divergence.  The claim (and spec section 8) says `find_largest_raw_numbers`
on a single page "500M vs 999999" with `top_n = 1` returns 999999.00, but
the code returns 999.00: the plain-number pattern's first alternative
matches only the prefix "999" of the literal, and no later match can start
inside a digit run (no word boundary), so the whole literal is never
extracted. -/
theorem raw_ranking_truncates_literal :
    find_largest_raw_numbers [some ("500M vs 999999").toList] 1 = [((999 : ℚ), 1)] := by
  with_unfolding_all rfl

/-- C3: evaluation of the code at the claim's own input, showing the
divergence.  The claim says `extract_numbers` returns a bare integer as one
token, in particular `[999999.0]` on "999999", but the code returns
`[999.0]`: the first regex alternative `\b\d{1,3}(?:,\d{3})*(?:\.\d+)?`
matches the three-digit prefix and wins (Python alternation is
first-match, not longest-match), and the `\b\d+` alternative is
unreachable. -/
theorem extract_numbers_truncates_bare_integer :
    extract_numbers ("999999").toList = [(999 : ℚ)] := by
  with_unfolding_all rfl

/-- C4: `find_scale_factor` returns the multiplier of a keyword surface
form ("in keyword" or "(keyword)", matched on the lower-cased text) whose
last-occurrence index is greatest among all forms, and the result is 1
exactly when that form (hence every form) does not occur; in particular a
text with "(in thousands)" earlier and "(in billions)" later yields 10^9. -/
theorem find_scale_factor_last_occurrence :
    (∀ text : List Char,
      ∃ p, p ∈ scalePatterns ∧
        (∀ q ∈ scalePatterns,
          rfind (text.map Char.toLower) q.1 ≤ rfind (text.map Char.toLower) p.1) ∧
        find_scale_factor text =
          (if rfind (text.map Char.toLower) p.1 = -1 then 1 else p.2)) ∧
    find_scale_factor ("(in thousands) data (in billions)").toList = 1000000000 := by
  constructor
  · intro text
    rcases foldl_scaleStep_spec (text.map Char.toLower) scalePatterns ((-1 : ℤ), (1 : ℕ))
      with ⟨heq, hle⟩ | ⟨p, hp, h1, h2, h3, h4⟩
    · have hmem : ((("in million" : String)).toList, 1000000) ∈ scalePatterns := by decide
      have hp0 : rfind (text.map Char.toLower) (("in million" : String)).toList = -1 :=
        le_antisymm (by simpa using hle _ hmem) (neg_one_le_rfind _ _)
      refine ⟨((("in million" : String)).toList, 1000000), hmem, ?_, ?_⟩
      · intro q hq
        rw [hp0]
        simpa using hle q hq
      · rw [if_pos hp0]
        unfold find_scale_factor
        rw [heq]
    · refine ⟨p, hp, ?_, ?_⟩
      · intro q hq
        rw [← h1]
        exact h4 q hq
      · rw [h1] at h3
        have h3b : (-1 : ℤ) < rfind (text.map Char.toLower) p.1 := by simpa using h3
        rw [if_neg (by omega)]
        unfold find_scale_factor
        exact h2
  · decide

/-- Closed instance of the last-occurrence property at the claim's example
text, obtained by applying the universally quantified part. -/
theorem find_scale_factor_last_occurrence_witness :
    ∃ p, p ∈ scalePatterns ∧
      (∀ q ∈ scalePatterns,
        rfind (("(in thousands) data (in billions)").toList.map Char.toLower) q.1 ≤
          rfind (("(in thousands) data (in billions)").toList.map Char.toLower) p.1) ∧
      find_scale_factor ("(in thousands) data (in billions)").toList =
        (if rfind (("(in thousands) data (in billions)").toList.map Char.toLower) p.1 = -1
          then 1 else p.2) :=
  find_scale_factor_last_occurrence.1 (("(in thousands) data (in billions)").toList)

/-- C5: `find_largest_number_in_pdf` is the first `top_n` entries of a
stable descending sort of the full accumulated collection by scaled value:
the sorted list is pairwise descending, is a permutation of the accumulated
entries, preserves the accumulation order among entries of equal scaled
value (stability, stated by filter preservation), the result never exceeds
`top_n` entries, and when the collection has at most `top_n` entries the
whole sorted collection is returned. -/
theorem top_scaled_sorted_stable_truncated (pages : List (Option (List Char))) (n : ℕ) :
    find_largest_number_in_pdf pages n =
      (sortDescBy (fun e => e.scaled_value) (collectScaled 0 pages)).take n ∧
    (sortDescBy (fun e => e.scaled_value) (collectScaled 0 pages)).Pairwise
      (fun a b => b.scaled_value ≤ a.scaled_value) ∧
    (sortDescBy (fun e => e.scaled_value) (collectScaled 0 pages)).Perm
      (collectScaled 0 pages) ∧
    (∀ q : ℚ,
      (sortDescBy (fun e => e.scaled_value) (collectScaled 0 pages)).filter
          (fun e => decide (e.scaled_value = q)) =
        (collectScaled 0 pages).filter (fun e => decide (e.scaled_value = q))) ∧
    (find_largest_number_in_pdf pages n).length ≤ n ∧
    ((collectScaled 0 pages).length ≤ n →
      find_largest_number_in_pdf pages n =
        sortDescBy (fun e => e.scaled_value) (collectScaled 0 pages)) := by
  refine ⟨rfl, sortDescBy_pairwise _ _, sortDescBy_perm _ _,
    fun q => sortDescBy_filter _ _ q, ?_, ?_⟩
  · unfold find_largest_number_in_pdf
    rw [List.length_take]
    exact inf_le_left
  · intro h
    unfold find_largest_number_in_pdf
    apply List.take_of_length_le
    rw [(sortDescBy_perm _ _).length_eq]
    exact h

/-- Closed instance: on a one-page document whose collection has two
entries, taking the top 5 returns the whole sorted collection. -/
theorem top_scaled_sorted_stable_truncated_witness :
    find_largest_number_in_pdf [some ("7 and 9").toList] 5 =
      sortDescBy (fun e => e.scaled_value) (collectScaled 0 [some ("7 and 9").toList]) :=
  (top_scaled_sorted_stable_truncated [some ("7 and 9").toList] 5).2.2.2.2.2
    (by with_unfolding_all decide)

/-- C6: every entry of the scaled ranking satisfies
`scaled_value = raw_value * multiplier`, and comes from some page text
where either it is a suffix-detected entry, whose multiplier is the
matched suffix letter's own table multiplier (never the page's contextual
factor), or it is a contextually scaled entry, whose multiplier is the
page's dominant multiplier. -/
theorem scaled_ranking_invariant (pages : List (Option (List Char))) (n : ℕ) :
    ∀ e ∈ find_largest_number_in_pdf pages n,
      e.scaled_value = e.raw_value * (e.multiplier : ℚ) ∧
      ∃ txt, some txt ∈ pages ∧
        ((∃ tok c, (tok, c) ∈ scanSuffixTokens txt ∧ isSuffixChar c = true ∧
            e.raw_value = parseDec tok ∧ e.multiplier = suffix_multipliers c) ∨
          e.multiplier = find_scale_factor txt) := by
  intro e he
  obtain ⟨txt, htxt, hpe⟩ := mem_collectScaled pages 0 (mem_find_largest he)
  rcases mem_pageEntries hpe with ⟨t, ht, heq⟩ | ⟨num, hnum, heq⟩
  · rcases t with ⟨r, sv, m⟩
    obtain ⟨tok, c, hmem, hsc, hr, hm, hsv⟩ := mem_parse_number_with_suffix ht
    rw [heq]
    exact ⟨hsv, txt, htxt, Or.inl ⟨tok, c, hmem, hsc, hr, hm⟩⟩
  · rw [heq]
    exact ⟨rfl, txt, htxt, Or.inr rfl⟩

/-- Closed instance of the entry invariant at the suffix entry produced by
a one-page document "5M". -/
theorem scaled_ranking_invariant_witness :
    (⟨5000000, 1, 5, 1000000⟩ : RankedEntry).scaled_value =
        (⟨5000000, 1, 5, 1000000⟩ : RankedEntry).raw_value *
          ((⟨5000000, 1, 5, 1000000⟩ : RankedEntry).multiplier : ℚ) ∧
      ∃ txt, some txt ∈ [some ("5M").toList] ∧
        ((∃ tok c, (tok, c) ∈ scanSuffixTokens txt ∧ isSuffixChar c = true ∧
            (⟨5000000, 1, 5, 1000000⟩ : RankedEntry).raw_value = parseDec tok ∧
            (⟨5000000, 1, 5, 1000000⟩ : RankedEntry).multiplier = suffix_multipliers c) ∨
          (⟨5000000, 1, 5, 1000000⟩ : RankedEntry).multiplier = find_scale_factor txt) :=
  scaled_ranking_invariant [some ("5M").toList] 1 ⟨5000000, 1, 5, 1000000⟩
    (by
      have h : find_largest_number_in_pdf [some ("5M").toList] 1 =
          [⟨5000000, 1, 5, 1000000⟩] := by with_unfolding_all rfl
      rw [h]
      exact List.mem_singleton_self _)

/-- C7: a page yielding no text (or empty text) contributes zero entries to
either accumulated collection, and a document in which no numeric token
occurs on any page makes both rankings return the empty sequence. -/
theorem empty_pages_and_empty_document :
    (∀ (i : ℕ) (p : Option (List Char)) (ps : List (Option (List Char))),
      (p = none ∨ p = some []) →
      collectScaled i (p :: ps) = collectScaled (i + 1) ps ∧
      collectRaw i (p :: ps) = collectRaw (i + 1) ps) ∧
    (∀ (pages : List (Option (List Char))) (n : ℕ),
      (∀ txt, some txt ∈ pages →
        extract_numbers txt = [] ∧ parse_number_with_suffix txt = []) →
      find_largest_number_in_pdf pages n = [] ∧ find_largest_raw_numbers pages n = []) := by
  constructor
  · rintro i p ps (rfl | rfl)
    · exact ⟨rfl, rfl⟩
    · constructor <;> simp [collectScaled, collectRaw]
  · intro pages n h
    obtain ⟨h1, h2⟩ := collect_eq_nil_of_no_tokens pages h 0
    constructor
    · unfold find_largest_number_in_pdf
      rw [h1]
      simp [sortDescBy]
    · unfold find_largest_raw_numbers
      rw [h2]
      simp [sortDescBy]

/-- Closed instance: a document of one textless page and one page with no
digits yields empty rankings. -/
theorem empty_pages_and_empty_document_witness :
    find_largest_number_in_pdf [none, some ("abc").toList] 3 = [] ∧
      find_largest_raw_numbers [none, some ("abc").toList] 3 = [] :=
  empty_pages_and_empty_document.2 [none, some ("abc").toList] 3
    (by
      intro txt ht
      rcases List.mem_cons.mp ht with h | h
      · exact absurd h (by simp)
      · rw [List.mem_singleton] at h
        rw [Option.some_inj] at h
        rw [h]
        exact ⟨by with_unfolding_all rfl, by with_unfolding_all rfl⟩)

/-- C8: the fallback of the suffix-multiplier lookup is unreachable: every
match of the suffixed-number pattern carries a suffix letter among
K/k/M/m/B/b/T/t, all keys of the table, so every returned triple has a
multiplier among 10^3, 10^6, 10^9, 10^12 and never the default 1. -/
theorem suffix_default_multiplier_unreachable :
    ∀ txt : List Char,
      (∀ ts ∈ scanSuffixTokens txt, isSuffixChar ts.2 = true) ∧
      (∀ (r sv : ℚ) (m : ℕ), (r, sv, m) ∈ parse_number_with_suffix txt →
        (m = 1000 ∨ m = 1000000 ∨ m = 1000000000 ∨ m = 1000000000000) ∧ m ≠ 1) := by
  intro txt
  constructor
  · rintro ⟨tok, c⟩ h
    exact mem_scanSuffixAux txt.length none txt h
  · intro r sv m h
    obtain ⟨tok, c, hmem, hsc, hr, hm, hsv⟩ := mem_parse_number_with_suffix h
    have htab := suffix_multipliers_of_isSuffixChar hsc
    rw [hm]
    refine ⟨htab, ?_⟩
    rcases htab with h1 | h1 | h1 | h1 <;> rw [h1] <;> decide

/-- Closed instance: the triple extracted from "5M" has multiplier 10^6,
in the table and different from the fallback 1. -/
theorem suffix_default_multiplier_unreachable_witness :
    ((1000000 : ℕ) = 1000 ∨ (1000000 : ℕ) = 1000000 ∨
      (1000000 : ℕ) = 1000000000 ∨ (1000000 : ℕ) = 1000000000000) ∧ (1000000 : ℕ) ≠ 1 :=
  (suffix_default_multiplier_unreachable ("5M").toList).2 5 5000000 1000000
    (by
      have h : parse_number_with_suffix ("5M").toList = [(5, 5000000, 1000000)] := by
        with_unfolding_all rfl
      rw [h]
      exact List.mem_singleton_self _)

/-- C9: every value produced by `extract_numbers` and by
`parse_number_with_suffix` is non-negative (the token patterns carry no
sign); the text "-5" contributes the unsigned magnitude 5; consequently
every raw and scaled value in both rankings is non-negative. -/
theorem all_values_nonneg :
    (∀ (txt : List Char) (v : ℚ), v ∈ extract_numbers txt → 0 ≤ v) ∧
    (∀ (txt : List Char) (r sv : ℚ) (m : ℕ),
      (r, sv, m) ∈ parse_number_with_suffix txt → 0 ≤ r ∧ 0 ≤ sv) ∧
    extract_numbers ("-5").toList = [5] ∧
    (∀ (pages : List (Option (List Char))) (n : ℕ) (e : RankedEntry),
      e ∈ find_largest_number_in_pdf pages n → 0 ≤ e.raw_value ∧ 0 ≤ e.scaled_value) ∧
    (∀ (pages : List (Option (List Char))) (n : ℕ) (v : ℚ) (pg : ℕ),
      (v, pg) ∈ find_largest_raw_numbers pages n → 0 ≤ v) := by
  refine ⟨?_, ?_, ?_, ?_, ?_⟩
  · intro txt v h
    obtain ⟨tok, -, rfl⟩ := mem_extract_numbers h
    exact parseDec_nonneg tok
  · intro txt r sv m h
    obtain ⟨tok, c, -, -, hr, -, hsv⟩ := mem_parse_number_with_suffix h
    have h1 : 0 ≤ r := by rw [hr]; exact parseDec_nonneg tok
    refine ⟨h1, ?_⟩
    rw [hsv]
    exact mul_nonneg h1 (Nat.cast_nonneg m)
  · with_unfolding_all rfl
  · intro pages n e he
    obtain ⟨txt, -, hpe⟩ := mem_collectScaled pages 0 (mem_find_largest he)
    rcases mem_pageEntries hpe with ⟨t, ht, heq⟩ | ⟨num, hnum, heq⟩
    · rcases t with ⟨r, sv, m⟩
      obtain ⟨tok, c, -, -, hr, -, hsv⟩ := mem_parse_number_with_suffix ht
      have h1 : 0 ≤ r := by rw [hr]; exact parseDec_nonneg tok
      rw [heq]
      refine ⟨h1, ?_⟩
      rw [hsv]
      exact mul_nonneg h1 (Nat.cast_nonneg m)
    · have h1 : 0 ≤ num := by
        obtain ⟨tok, -, rfl⟩ := mem_extract_numbers hnum
        exact parseDec_nonneg tok
      rw [heq]
      exact ⟨h1, mul_nonneg h1 (Nat.cast_nonneg _)⟩
  · intro pages n v pg h
    obtain ⟨txt, -, hv⟩ := mem_collectRaw pages 0 (mem_find_largest_raw h)
    obtain ⟨tok, -, rfl⟩ := mem_extract_numbers hv
    exact parseDec_nonneg tok

/-- Closed instance: the single value extracted from "-5" is non-negative. -/
theorem all_values_nonneg_witness : (0 : ℚ) ≤ 5 :=
  all_values_nonneg.1 ("-5").toList 5
    (by
      have h : extract_numbers ("-5").toList = [5] := by with_unfolding_all rfl
      rw [h]
      exact List.mem_singleton_self _)

/-- C10: both ranking operations are deterministic: they are pure functions
of the per-page text sequence and the cutoff, so equal inputs give equal
output sequences; no ambient state occurs in the embedding. -/
theorem rankings_deterministic :
    ∀ (pages1 pages2 : List (Option (List Char))) (n : ℕ), pages1 = pages2 →
      find_largest_number_in_pdf pages1 n = find_largest_number_in_pdf pages2 n ∧
      find_largest_raw_numbers pages1 n = find_largest_raw_numbers pages2 n := by
  intro p1 p2 n h
  rw [h]
  exact ⟨rfl, rfl⟩

/-- Closed instance of determinism on a concrete one-page document. -/
theorem rankings_deterministic_witness :
    find_largest_number_in_pdf [some ("5M").toList] 1 =
        find_largest_number_in_pdf [some ("5M").toList] 1 ∧
      find_largest_raw_numbers [some ("5M").toList] 1 =
        find_largest_raw_numbers [some ("5M").toList] 1 :=
  rankings_deterministic [some ("5M").toList] [some ("5M").toList] 1 rfl
